import Mathlib

/-
Verification development for the World Courier shortest-path script.

The script parses two HTML tables (city coordinates and direct flight
connections), builds an undirected weighted graph whose edge weights are
haversine distances, and answers a single-pair shortest-path query with
Dijkstra's algorithm.

Modelling choices, all taken from the executed source:
- HTML scraping is modelled at the table-row boundary: a row is the list of
  its cell texts, and the Python float(...) parse is an abstract parameter
  of type String -> Option V (it either yields a number or raises, which the
  script catches).  The weight/coordinate type is kept generic where the
  control flow does not depend on it, and instantiated with the reals where
  the haversine formula is involved.
- The haversine library call is modelled by its formula over the reals
  (sin/cos/arcsin/sqrt on a sphere of radius 6371.0088 km), the exact code
  of haversine.haversine with Unit.KILOMETERS.
- The networkx graph is modelled as a node list in insertion order plus one
  record per undirected edge (stored in first-insertion orientation);
  add_edge overwrites the weight of an existing edge in place and appends a
  new edge, exactly as the adjacency dicts do.
- nx.shortest_path / nx.shortest_path_length (weighted, hence Dijkstra) are
  modelled by the library's reference Dijkstra: a fringe of
  (distance, counter, node) triples popped in lexicographic order (heapq
  with an itertools.count tie-breaker), a seen map of tentative distances, a
  dist map of finalized distances and a paths map, with the entry checks of
  the executed wrappers: both endpoints are checked for membership up front
  (raising nx.NodeNotFound naming the interpolated nodes), source == target
  returns ([source], 0) without searching, and an exhausted search raises
  NetworkXNoPath, which find_shortest_path alone catches and turns into
  ([], float inf) -- modelled as ([], top).  The "Contradictory paths
  found" ValueError of the relaxation step is kept as an explicit outcome.
- The loop is written with explicit fuel; the fuel is a static bound that
  dominates the number of heap pops (every pop consumes one of at most
  1 + 2*|edges| pushes), and running out of fuel returns the state built so
  far, which is sound for every property proved below because all of them
  are invariants of the partial search state.
-/

/-- Association-list lookup, first binding wins (Python dict lookup; the
maps built below keep keys unique, so first is the only one). -/
def lookupL {β : Type} : List (String × β) → String → Option β
  | [], _ => none
  | (k, v) :: rest, key => if k = key then some v else lookupL rest key

/-- Python dict assignment d[k] = v: overwrite in place if the key exists,
else append the new binding. -/
def dictUpd {β : Type} : List (String × β) → String → β → List (String × β)
  | [], k, v => [(k, v)]
  | (a, b) :: rest, k, v =>
    if a = k then (k, v) :: rest else (a, b) :: dictUpd rest k v

/-- networkx.Graph: nodes in insertion order, and one record per undirected
edge -- the endpoints in first-insertion orientation together with the
weight attribute. -/
structure Graph (W : Type) where
  nodes : List String
  edges : List (String × String × W)

/-- Whether two endpoint pairs denote the same undirected edge (nx.Graph
treats (u,v) and (v,u) as the same edge; a pair (u,u) is a self-loop). -/
def sameEdgeB (p q : String × String) : Bool :=
  (p.1 == q.1 && p.2 == q.2) || (p.1 == q.2 && p.2 == q.1)

/-- nx.Graph.add_node: a no-op when the node is already present. -/
def Graph.add_node {W : Type} (g : Graph W) (v : String) : Graph W :=
  if v ∈ g.nodes then g else { g with nodes := g.nodes ++ [v] }

/-- Edge-record update underlying nx.Graph.add_edge: overwrite the weight of
the edge between the same unordered endpoint pair in place, else append. -/
def updEdge {W : Type} :
    List (String × String × W) → String → String → W → List (String × String × W)
  | [], u, v, w => [(u, v, w)]
  | e :: rest, u, v, w =>
    if sameEdgeB (e.1, e.2.1) (u, v) then (e.1, e.2.1, w) :: rest
    else e :: updEdge rest u v w

/-- nx.Graph.add_edge(u, v, weight=w): adds missing endpoints as nodes and
sets the weight of the undirected edge u-v. -/
def Graph.add_edge {W : Type} (g : Graph W) (u v : String) (w : W) : Graph W :=
  let g1 := (g.add_node u).add_node v
  { g1 with edges := updEdge g1.edges u v w }

/-- Weight lookup in an edge-record list (first record between the same
unordered endpoint pair wins; nx keeps at most one). -/
def findEdge {W : Type} : List (String × String × W) → String → String → Option W
  | [], _, _ => none
  | e :: rest, u, v =>
    if sameEdgeB (e.1, e.2.1) (u, v) then some e.2.2 else findEdge rest u v

/-- G[u][v]: the weight of the undirected edge u-v, if present. -/
def Graph.getEdge {W : Type} (g : Graph W) (u v : String) : Option W :=
  findEdge g.edges u v

/-- G_succ[v].items(): the neighbours of v with edge weights, in the order
the incident edges were first inserted (adjacency-dict order); a self-loop
contributes the single entry (v, w). -/
def Graph.nbrs {W : Type} (g : Graph W) (v : String) : List (String × W) :=
  g.edges.filterMap fun e =>
    if e.1 = v then some (e.2.1, e.2.2)
    else if e.2.1 = v then some (e.1, e.2.2) else none

/-- Mean Earth radius in kilometres used by the haversine library. -/
noncomputable def earthRadiusKm : ℝ := 6371.0088

/-- haversine.haversine(point1, point2, unit=Unit.KILOMETERS): converts the
(latitude, longitude) pairs to radians and applies the haversine formula
2 R arcsin (sqrt d). -/
noncomputable def haversine (p1 p2 : ℝ × ℝ) : ℝ :=
  2 * earthRadiusKm * Real.arcsin (Real.sqrt
    (Real.sin ((p2.1 * (Real.pi / 180) - p1.1 * (Real.pi / 180)) / 2) ^ 2 +
      Real.cos (p1.1 * (Real.pi / 180)) * Real.cos (p2.1 * (Real.pi / 180)) *
        Real.sin ((p2.2 * (Real.pi / 180) - p1.2 * (Real.pi / 180)) / 2) ^ 2))

/-- calculate_haversine_distance: the script's wrapper around the library
haversine call, distance in kilometres. -/
noncomputable def calculate_haversine_distance (coord1 coord2 : ℝ × ℝ) : ℝ :=
  haversine coord1 coord2

/-- parse_city_coordinates, modelled from the extracted table rows onward: a
row with at least three cells whose second and third cells both parse as
numbers assigns coordinates[city] = (lat, lon); a failed parse is caught and
the row skipped.  pf abstracts Python float() (None plays ValueError). -/
def cityRowStep {V : Type} (pf : String → Option V)
    (coordinates : List (String × (V × V))) (cells : List String) :
    List (String × (V × V)) :=
  match cells with
  | city :: c1 :: c2 :: _ =>
    match pf c1, pf c2 with
    | some lat, some lon => dictUpd coordinates city (lat, lon)
    | _, _ => coordinates
  | _ => coordinates

def parse_city_coordinates {V : Type} (pf : String → Option V)
    (rows : List (List String)) : List (String × (V × V)) :=
  rows.foldl (cityRowStep pf) []

/-- parse_flight_connections, modelled from the extracted table rows onward:
a row with at least two cells whose first two cell texts are both nonempty
appends the pair (from_city, to_city). -/
def connRowStep (connections : List (String × String)) (cells : List String) :
    List (String × String) :=
  match cells with
  | f :: t :: _ =>
    if f ≠ "" ∧ t ≠ "" then connections ++ [(f, t)] else connections
  | _ => connections

def parse_flight_connections (rows : List (List String)) : List (String × String) :=
  rows.foldl connRowStep []

/-- build_flight_graph: one node per coordinate key, then for each
connection with both endpoints in the coordinate mapping an edge weighted by
the haversine distance.  (There is no self-loop check in the source.) -/
noncomputable def buildEdgeStep (coordinates : List (String × (ℝ × ℝ)))
    (g : Graph ℝ) (c : String × String) : Graph ℝ :=
  match lookupL coordinates c.1, lookupL coordinates c.2 with
  | some p1, some p2 => g.add_edge c.1 c.2 (calculate_haversine_distance p1 p2)
  | _, _ => g

noncomputable def build_flight_graph (coordinates : List (String × (ℝ × ℝ)))
    (connections : List (String × String)) : Graph ℝ :=
  connections.foldl (buildEdgeStep coordinates)
    (coordinates.foldl (fun g cw => g.add_node cw.1) ⟨[], []⟩)

/-- Search state of networkx's Dijkstra (_dijkstra_multisource): finalized
distances, tentative distances, discovered paths, the heap contents, and the
itertools.count value. -/
structure DState (W : Type) where
  dist : List (String × W)
  seen : List (String × W)
  paths : List (String × List String)
  fringe : List (W × Nat × String)
  counter : Nat

/-- heapq.heappop on the (distance, counter, node) triples: returns the
lexicographically least entry (ties in distance broken by the insertion
counter) and the remaining entries. -/
def popMin {W : Type} [LinearOrder W] :
    List (W × Nat × String) → Option ((W × Nat × String) × List (W × Nat × String))
  | [] => none
  | e :: rest =>
    match popMin rest with
    | none => some (e, [])
    | some (m, others) =>
      if e.1 < m.1 ∨ (e.1 = m.1 ∧ e.2.1 ≤ m.2.1) then some (e, rest)
      else some (m, e :: others)

/-- The part of the search state the neighbour relaxation updates. -/
structure Relax (W : Type) where
  seen : List (String × W)
  paths : List (String × List String)
  fringe : List (W × Nat × String)
  counter : Nat

/-- The relaxation loop over the neighbours of the just-finalized node v:
dist are the finalized distances (v included, at distance d), pv the path
stored for v.  An already-finalized neighbour strictly improved upon is the
library's ValueError ("Contradictory paths found"), modelled as none. -/
def relaxNbrs {W : Type} [LinearOrderedAddCommMonoid W]
    (dist : List (String × W)) (pv : List String) (d : W) :
    List (String × W) → Relax W → Option (Relax W)
  | [], r => some r
  | (u, cost) :: rest, r =>
    match lookupL dist u with
    | some du => if d + cost < du then none else relaxNbrs dist pv d rest r
    | none =>
      match lookupL r.seen u with
      | some su =>
        if d + cost < su then
          relaxNbrs dist pv d rest
            ⟨dictUpd r.seen u (d + cost), dictUpd r.paths u (pv ++ [u]),
              r.fringe ++ [(d + cost, r.counter, u)], r.counter + 1⟩
        else relaxNbrs dist pv d rest r
      | none =>
        relaxNbrs dist pv d rest
          ⟨dictUpd r.seen u (d + cost), dictUpd r.paths u (pv ++ [u]),
            r.fringe ++ [(d + cost, r.counter, u)], r.counter + 1⟩

/-- Result of the Dijkstra main loop: the finalized distances and paths, or
the ValueError raised on a contradictory (negative-weight) relaxation. -/
inductive DijkstraResult (W : Type) where
  | finished (dist : List (String × W)) (paths : List (String × List String))
  | valueError

/-- The main loop of _dijkstra_multisource: pop the least fringe entry, skip
it if already finalized, otherwise finalize it, stop if it is the target,
else relax its neighbours.  Structural fuel; running out returns the state
built so far. -/
def dloop {W : Type} [LinearOrderedAddCommMonoid W] (g : Graph W)
    (target : String) : Nat → DState W → DijkstraResult W
  | 0, st => .finished st.dist st.paths
  | fuel + 1, st =>
    match popMin st.fringe with
    | none => .finished st.dist st.paths
    | some ((d, _, v), rest) =>
      match lookupL st.dist v with
      | some _ => dloop g target fuel ⟨st.dist, st.seen, st.paths, rest, st.counter⟩
      | none =>
        if v = target then .finished ((v, d) :: st.dist) st.paths
        else
          match relaxNbrs ((v, d) :: st.dist) ((lookupL st.paths v).getD [v]) d
              (g.nbrs v) ⟨st.seen, st.paths, rest, st.counter⟩ with
          | none => .valueError
          | some r =>
            dloop g target fuel ⟨(v, d) :: st.dist, r.seen, r.paths, r.fringe, r.counter⟩

/-- Static bound on the number of heap pops: one initial push plus at most
one push per directed edge incidence. -/
def dijkstraFuel {W : Type} (g : Graph W) : Nat := 2 * g.edges.length + 2

/-- single_source_dijkstra with paths: seed the source at distance 0 with
path [source] and counter 0, then run the main loop. -/
def single_source_dijkstra {W : Type} [LinearOrderedAddCommMonoid W]
    (g : Graph W) (s target : String) : DijkstraResult W :=
  dloop g target (dijkstraFuel g) ⟨[], [(s, 0)], [(s, [s])], [(0, 0, s)], 1⟩

/-- The networkx exceptions the script can meet: NodeNotFound (carrying the
node names interpolated into its message), NetworkXNoPath, and the
ValueError of a contradictory relaxation. -/
inductive NXErr where
  | nodeNotFound (named : List String)
  | noPath
  | contradictoryPaths

/-- nx.shortest_path(graph, start, end, weight="weight"): the executed
wrapper checks membership of both endpoints up front and raises
NodeNotFound interpolating both names ("Either source ... or target ... is
not in G"), returns [source] when source == target, and raises
NetworkXNoPath when the search finalizes no path to the target. -/
def nx_shortest_path {W : Type} [LinearOrderedAddCommMonoid W]
    (g : Graph W) (s t : String) : Except NXErr (List String) :=
  if s ∈ g.nodes ∧ t ∈ g.nodes then
    if s = t then .ok [s]
    else
      match single_source_dijkstra g s t with
      | .valueError => .error .contradictoryPaths
      | .finished dist paths =>
        match lookupL dist t with
        | none => .error .noPath
        | some _ =>
          match lookupL paths t with
          | some p => .ok p
          | none => .error .noPath
  else .error (.nodeNotFound [s, t])

/-- nx.shortest_path_length(graph, start, end, weight="weight"): checks the
source only (NodeNotFound naming it), returns 0 when source == target, else
the finalized distance of the target or NetworkXNoPath.  WithTop W hosts the
float return value, top standing for float inf. -/
def nx_shortest_path_length {W : Type} [LinearOrderedAddCommMonoid W]
    (g : Graph W) (s t : String) : Except NXErr (WithTop W) :=
  if s ∈ g.nodes then
    if s = t then .ok 0
    else
      match single_source_dijkstra g s t with
      | .valueError => .error .contradictoryPaths
      | .finished dist _ =>
        match lookupL dist t with
        | some d => .ok (↑d)
        | none => .error .noPath
  else .error (.nodeNotFound [s])

/-- What a call of find_shortest_path can do: return a (path, distance)
tuple, or escape with one of the uncaught exceptions. -/
inductive SPOutcome (W : Type) where
  | ok (path : List String) (distance : WithTop W)
  | nodeNotFound (named : List String)
  | contradictoryPaths
  deriving DecidableEq

/-- find_shortest_path: try path := nx.shortest_path(...); distance :=
nx.shortest_path_length(...); return (path, distance); except
NetworkXNoPath: return ([], float inf).  NodeNotFound and ValueError are not
caught and escape. -/
def find_shortest_path {W : Type} [LinearOrderedAddCommMonoid W]
    (g : Graph W) (s t : String) : SPOutcome W :=
  match nx_shortest_path g s t with
  | .error (.nodeNotFound names) => .nodeNotFound names
  | .error .contradictoryPaths => .contradictoryPaths
  | .error .noPath => .ok [] ⊤
  | .ok p =>
    match nx_shortest_path_length g s t with
    | .error (.nodeNotFound names) => .nodeNotFound names
    | .error .contradictoryPaths => .contradictoryPaths
    | .error .noPath => .ok [] ⊤
    | .ok d => .ok p d

/-- Representation invariant every nx.Graph value satisfies: at most one
edge record per unordered endpoint pair. -/
def Graph.EdgesWF {W : Type} (g : Graph W) : Prop :=
  g.edges.Pairwise fun e f => sameEdgeB (e.1, e.2.1) (f.1, f.2.1) = false

/-- All edge weights are nonnegative (true of every haversine-built graph). -/
def Graph.NonnegW {W : Type} [LinearOrderedAddCommMonoid W] (g : Graph W) : Prop :=
  ∀ e ∈ g.edges, (0 : W) ≤ e.2.2

/-- Nodes u and v are joined by an edge of g. -/
def edgeIn {W : Type} (g : Graph W) (u v : String) : Prop :=
  (g.getEdge u v).isSome = true

/-- Connectivity: t is reachable from s along edges of g. -/
def Reach {W : Type} (g : Graph W) (s t : String) : Prop :=
  Relation.ReflTransGen (fun a b => edgeIn g a b) s t

/-- Independent recomputation of a path's total weight: the sum of the
graph's edge weights along consecutive pairs. -/
def pathW {W : Type} [LinearOrderedAddCommMonoid W] (g : Graph W) :
    List String → W
  | [] => 0
  | [_] => 0
  | a :: b :: rest => (g.getEdge a b).getD 0 + pathW g (b :: rest)

/-! Basic lemmas about the heap model. -/

/-- Lexicographic-or-below on (distance, counter) pairs is transitive. -/
theorem lexLe_trans {W : Type} [LinearOrder W] {d1 d2 d3 : W} {c1 c2 c3 : Nat}
    (h1 : d1 < d2 ∨ (d1 = d2 ∧ c1 ≤ c2)) (h2 : d2 < d3 ∨ (d2 = d3 ∧ c2 ≤ c3)) :
    d1 < d3 ∨ (d1 = d3 ∧ c1 ≤ c3) := by
  rcases h1 with h1 | ⟨e1, l1⟩
  · rcases h2 with h2 | ⟨e2, l2⟩
    · exact Or.inl (h1.trans h2)
    · exact Or.inl (e2 ▸ h1)
  · rcases h2 with h2 | ⟨e2, l2⟩
    · exact Or.inl (e1 ▸ h2)
    · exact Or.inr ⟨e1.trans e2, l1.trans l2⟩

/-- A popped entry was in the heap. -/
theorem popMin_mem {W : Type} [LinearOrder W] :
    ∀ {l : List (W × Nat × String)} {e r}, popMin l = some (e, r) → e ∈ l := by
  intro l
  induction l with
  | nil => intro e r h; simp [popMin] at h
  | cons a rest ih =>
    intro e r h
    cases hr : popMin rest with
    | none =>
      simp only [popMin, hr] at h
      simp at h
      exact h.1 ▸ List.mem_cons_self a rest
    | some mo =>
      obtain ⟨m, others⟩ := mo
      simp only [popMin, hr] at h
      by_cases hc : a.1 < m.1 ∨ (a.1 = m.1 ∧ a.2.1 ≤ m.2.1)
      · rw [if_pos hc] at h
        simp at h
        exact h.1 ▸ List.mem_cons_self a rest
      · rw [if_neg hc] at h
        simp at h
        exact List.mem_cons_of_mem a (h.1 ▸ ih hr)

/-- Entries of the remaining heap were in the heap. -/
theorem popMin_sub {W : Type} [LinearOrder W] :
    ∀ {l : List (W × Nat × String)} {e r}, popMin l = some (e, r) →
      ∀ x ∈ r, x ∈ l := by
  intro l
  induction l with
  | nil => intro e r h; simp [popMin] at h
  | cons a rest ih =>
    intro e r h x hx
    cases hr : popMin rest with
    | none =>
      simp only [popMin, hr] at h
      simp at h
      rw [h.2] at hx
      simp at hx
    | some mo =>
      obtain ⟨m, others⟩ := mo
      simp only [popMin, hr] at h
      by_cases hc : a.1 < m.1 ∨ (a.1 = m.1 ∧ a.2.1 ≤ m.2.1)
      · rw [if_pos hc] at h
        simp at h
        rw [← h.2] at hx
        exact List.mem_cons_of_mem a hx
      · rw [if_neg hc] at h
        simp at h
        rw [← h.2] at hx
        rcases List.mem_cons.mp hx with hx | hx
        · exact hx ▸ List.mem_cons_self a rest
        · exact List.mem_cons_of_mem a (ih hr x hx)

/-- Every heap entry is the popped one or remains in the rest. -/
theorem popMin_cover {W : Type} [LinearOrder W] :
    ∀ {l : List (W × Nat × String)} {e r}, popMin l = some (e, r) →
      ∀ x ∈ l, x = e ∨ x ∈ r := by
  intro l
  induction l with
  | nil => intro e r h; simp [popMin] at h
  | cons a rest ih =>
    intro e r h x hx
    cases hr : popMin rest with
    | none =>
      have hrest : rest = [] := by
        cases rest with
        | nil => rfl
        | cons b rb =>
          cases hb : popMin rb with
          | none => simp only [popMin, hb] at hr; simp at hr
          | some m2 =>
            obtain ⟨m2e, m2r⟩ := m2
            simp only [popMin, hb] at hr
            by_cases hc2 : b.1 < m2e.1 ∨ (b.1 = m2e.1 ∧ b.2.1 ≤ m2e.2.1)
            · rw [if_pos hc2] at hr; simp at hr
            · rw [if_neg hc2] at hr; simp at hr
      subst hrest
      simp only [popMin, hr] at h
      simp at h
      simp at hx
      exact Or.inl (hx.trans h.1)
    | some mo =>
      obtain ⟨m, others⟩ := mo
      simp only [popMin, hr] at h
      by_cases hc : a.1 < m.1 ∨ (a.1 = m.1 ∧ a.2.1 ≤ m.2.1)
      · rw [if_pos hc] at h
        simp at h
        rcases List.mem_cons.mp hx with hx | hx
        · exact Or.inl (hx.trans h.1)
        · exact Or.inr (h.2 ▸ hx)
      · rw [if_neg hc] at h
        simp at h
        rcases List.mem_cons.mp hx with hx | hx
        · exact Or.inr (h.2 ▸ (hx ▸ List.mem_cons_self x others))
        · rcases ih hr x hx with hx2 | hx2
          · exact Or.inl (hx2.trans h.1)
          · exact Or.inr (h.2 ▸ List.mem_cons_of_mem a hx2)

/-- heappop returns the lexicographic minimum: strictly smaller distance, or
equal distance and no larger insertion counter, than every heap entry. -/
theorem popMin_lexmin {W : Type} [LinearOrder W] :
    ∀ {l : List (W × Nat × String)} {e r}, popMin l = some (e, r) →
      ∀ x ∈ l, e.1 < x.1 ∨ (e.1 = x.1 ∧ e.2.1 ≤ x.2.1) := by
  intro l
  induction l with
  | nil => intro e r h; simp [popMin] at h
  | cons a rest ih =>
    intro e r h x hx
    cases hr : popMin rest with
    | none =>
      have hrest : rest = [] := by
        cases rest with
        | nil => rfl
        | cons b rb =>
          cases hb : popMin rb with
          | none => simp only [popMin, hb] at hr; simp at hr
          | some m2 =>
            obtain ⟨m2e, m2r⟩ := m2
            simp only [popMin, hb] at hr
            by_cases hc2 : b.1 < m2e.1 ∨ (b.1 = m2e.1 ∧ b.2.1 ≤ m2e.2.1)
            · rw [if_pos hc2] at hr; simp at hr
            · rw [if_neg hc2] at hr; simp at hr
      subst hrest
      simp only [popMin, hr] at h
      simp at h
      simp at hx
      subst hx
      exact Or.inr ⟨by rw [h.1], by rw [h.1]⟩
    | some mo =>
      obtain ⟨m, others⟩ := mo
      simp only [popMin, hr] at h
      by_cases hc : a.1 < m.1 ∨ (a.1 = m.1 ∧ a.2.1 ≤ m.2.1)
      · rw [if_pos hc] at h
        simp at h
        rw [← h.1]
        rcases List.mem_cons.mp hx with hx | hx
        · exact Or.inr ⟨by rw [hx], by rw [hx]⟩
        · exact lexLe_trans hc (ih hr x hx)
      · rw [if_neg hc] at h
        simp at h
        rw [← h.1]
        have hmin : m.1 < a.1 ∨ (m.1 = a.1 ∧ m.2.1 ≤ a.2.1) := by
          rcases not_or.mp hc with ⟨h1, h2⟩
          rcases lt_or_eq_of_le (not_lt.mp h1) with hlt | heq
          · exact Or.inl hlt
          · refine Or.inr ⟨heq, ?_⟩
            have hn : ¬ a.2.1 ≤ m.2.1 := fun hle => h2 ⟨heq.symm, hle⟩
            exact Nat.le_of_lt (Nat.lt_of_not_le hn)
        rcases List.mem_cons.mp hx with hx | hx
        · exact hx ▸ hmin
        · exact ih hr x hx

/-! Claim theorems: the Distance Metric, and the solver's entry behaviour. -/

/-- C8: the Distance Metric is total over all (real, hence finite) coordinate
pairs and returns a nonnegative number of kilometres; distance a a is exactly
0; and distance is symmetric (exactly so in the real-number model, hence
within floating-point rounding in the script).  Totality is by type: the
model is defined on all of ℝ × ℝ with no error case, matching the library
formula, and in particular identical and antipodal coordinates are valid. -/
theorem distance_metric_total_nonneg_zero_symm (a b : ℝ × ℝ) :
    0 ≤ calculate_haversine_distance a b ∧
      calculate_haversine_distance a a = 0 ∧
      calculate_haversine_distance a b = calculate_haversine_distance b a := by
  refine ⟨?_, ?_, ?_⟩
  · unfold calculate_haversine_distance haversine
    have h1 : (0 : ℝ) ≤ Real.arcsin (Real.sqrt
        (Real.sin ((b.1 * (Real.pi / 180) - a.1 * (Real.pi / 180)) / 2) ^ 2 +
          Real.cos (a.1 * (Real.pi / 180)) * Real.cos (b.1 * (Real.pi / 180)) *
            Real.sin ((b.2 * (Real.pi / 180) - a.2 * (Real.pi / 180)) / 2) ^ 2)) :=
      Real.arcsin_nonneg.mpr (Real.sqrt_nonneg _)
    have h2 : (0 : ℝ) ≤ 2 * earthRadiusKm := by norm_num [earthRadiusKm]
    exact mul_nonneg h2 h1
  · unfold calculate_haversine_distance haversine
    simp
  · unfold calculate_haversine_distance haversine
    have key : ∀ x y : ℝ, Real.sin ((x - y) / 2) ^ 2 = Real.sin ((y - x) / 2) ^ 2 := by
      intro x y
      rw [show (x - y) / 2 = -((y - x) / 2) by ring, Real.sin_neg, neg_sq]
    conv_rhs => rw [key (a.1 * (Real.pi / 180)) (b.1 * (Real.pi / 180)),
      key (a.2 * (Real.pi / 180)) (b.2 * (Real.pi / 180)),
      mul_comm (Real.cos (b.1 * (Real.pi / 180))) (Real.cos (a.1 * (Real.pi / 180)))]

/-- C1: if the start or the end name is not a node of the graph,
find_shortest_path surfaces the NodeNotFound condition (an uncaught, named
exception, not a plain return value and not an anonymous fault), whose
message interpolates both query names -- in particular the missing one --
and this covers the start-missing case and the end-missing case alike. -/
theorem shortest_path_missing_node_nodeNotFound {W : Type} [LinearOrderedAddCommMonoid W]
    (g : Graph W) (s t : String) (h : s ∉ g.nodes ∨ t ∉ g.nodes) :
    find_shortest_path g s t = .nodeNotFound [s, t] ∧
      (s ∉ g.nodes → s ∈ [s, t]) ∧ (t ∉ g.nodes → t ∈ [s, t]) := by
  have hm : ¬ (s ∈ g.nodes ∧ t ∈ g.nodes) := by tauto
  refine ⟨?_, fun _ => by simp, fun _ => by simp⟩
  unfold find_shortest_path nx_shortest_path
  rw [if_neg hm]

/-- Witness for C1 at a concrete graph with the end name missing. -/
theorem shortest_path_missing_node_witness :
    find_shortest_path (⟨["A"], []⟩ : Graph ℕ) "A" "B" = .nodeNotFound ["A", "B"] ∧
      ("A" ∉ (⟨["A"], []⟩ : Graph ℕ).nodes → "A" ∈ ["A", "B"]) ∧
      ("B" ∉ (⟨["A"], []⟩ : Graph ℕ).nodes → "B" ∈ ["A", "B"]) :=
  shortest_path_missing_node_nodeNotFound ⟨["A"], []⟩ "A" "B" (Or.inr (by decide))

/-- C5: when the start equals the end and that node is present,
find_shortest_path returns the single-element path with total weight 0; the
result does not depend on the edge set at all (the source == target check
fires before the search), which is the no-edge-traversal guarantee. -/
theorem shortest_path_self_trivial {W : Type} [LinearOrderedAddCommMonoid W]
    (g : Graph W) (X : String) (h : X ∈ g.nodes) :
    find_shortest_path g X X = .ok [X] 0 ∧
      find_shortest_path g X X = find_shortest_path ⟨g.nodes, []⟩ X X := by
  have e : ∀ (g' : Graph W), X ∈ g'.nodes → find_shortest_path g' X X = .ok [X] 0 := by
    intro g' h'
    unfold find_shortest_path nx_shortest_path nx_shortest_path_length
    rw [if_pos ⟨h', h'⟩, if_pos rfl, if_pos h', if_pos rfl]
  exact ⟨e g h, (e g h).trans (e ⟨g.nodes, []⟩ h).symm⟩

/-- Witness for C5 at a concrete one-node graph carrying a (self-loop) edge. -/
theorem shortest_path_self_trivial_witness :
    find_shortest_path (⟨["A"], [("A", "A", 7)]⟩ : Graph ℕ) "A" "A" = .ok ["A"] 0 ∧
      find_shortest_path (⟨["A"], [("A", "A", 7)]⟩ : Graph ℕ) "A" "A" =
        find_shortest_path (⟨(⟨["A"], [("A", "A", 7)]⟩ : Graph ℕ).nodes, []⟩ : Graph ℕ) "A" "A" :=
  shortest_path_self_trivial ⟨["A"], [("A", "A", 7)]⟩ "A" (by decide)

/-- C7: the solver is a pure function of the graph and the two names, so two
runs on the same built graph return the identical result; and the priority
structure pops the entry that is strictly closer or, at equal tentative
distance, the one with the smaller insertion counter -- ties are broken by
insertion/discovery order, which is what makes the choice among several
minimum-weight paths reproducible. -/
theorem shortest_path_deterministic_tiebreak {W : Type} [LinearOrderedAddCommMonoid W]
    (g : Graph W) (s t : String) :
    find_shortest_path g s t = find_shortest_path g s t ∧
      (∀ (l : List (W × Nat × String)) e r, popMin l = some (e, r) →
        ∀ x ∈ l, e.1 < x.1 ∨ (e.1 = x.1 ∧ e.2.1 ≤ x.2.1)) :=
  ⟨rfl, fun _ _ _ h => popMin_lexmin h⟩

/-- Witness for C7: concrete run plus a concrete two-entry tie in the heap,
resolved in favour of the earlier-inserted entry. -/
theorem shortest_path_deterministic_tiebreak_witness :
    find_shortest_path (⟨["A", "B"], [("A", "B", 1)]⟩ : Graph ℕ) "A" "B" =
        find_shortest_path (⟨["A", "B"], [("A", "B", 1)]⟩ : Graph ℕ) "A" "B" ∧
      ((5 : ℕ) < 5 ∨ ((5 : ℕ) = 5 ∧ (0 : ℕ) ≤ 1)) := by
  have h := shortest_path_deterministic_tiebreak (⟨["A", "B"], [("A", "B", 1)]⟩ : Graph ℕ) "A" "B"
  refine ⟨h.1, ?_⟩
  have h2 := h.2 [((5 : ℕ), 0, "X"), ((5 : ℕ), 1, "Y")] ((5 : ℕ), 0, "X") [((5 : ℕ), 1, "Y")]
    (by decide) ((5 : ℕ), 1, "Y") (by decide)
  simp at h2
  simp [h2]

/-! Lemmas about dict lookup and update. -/

theorem lookupL_dictUpd_self {β : Type} :
    ∀ (l : List (String × β)) (k : String) (v : β),
      lookupL (dictUpd l k v) k = some v := by
  intro l
  induction l with
  | nil => intro k v; simp [dictUpd, lookupL]
  | cons a rest ih =>
    intro k v
    obtain ⟨ak, av⟩ := a
    by_cases h : ak = k
    · simp [dictUpd, h, lookupL]
    · simp only [dictUpd, h, if_false, lookupL]
      exact ih k v

theorem lookupL_dictUpd_ne {β : Type} :
    ∀ (l : List (String × β)) (k k' : String) (v : β), k ≠ k' →
      lookupL (dictUpd l k v) k' = lookupL l k' := by
  intro l
  induction l with
  | nil => intro k k' v h; simp [dictUpd, lookupL, h]
  | cons a rest ih =>
    intro k k' v h
    obtain ⟨ak, av⟩ := a
    by_cases hak : ak = k
    · subst hak
      simp [dictUpd, lookupL, h]
    · simp only [dictUpd, hak, if_false, lookupL]
      rw [ih k k' v h]

theorem keys_dictUpd {β : Type} :
    ∀ (l : List (String × β)) (k : String) (v : β),
      (dictUpd l k v).map Prod.fst = l.map Prod.fst ∨
        (dictUpd l k v).map Prod.fst = l.map Prod.fst ++ [k] ∧ k ∉ l.map Prod.fst := by
  intro l
  induction l with
  | nil => intro k v; right; simp [dictUpd]
  | cons a rest ih =>
    intro k v
    obtain ⟨ak, av⟩ := a
    by_cases h : ak = k
    · left; simp [dictUpd, h]
    · rcases ih k v with ih1 | ⟨ih1, ih2⟩
      · left; simp [dictUpd, h, ih1]
      · right
        constructor
        · simp [dictUpd, h, ih1]
        · simp [h, ih2]
          exact fun he => h he.symm

theorem nodup_keys_dictUpd {β : Type} (l : List (String × β)) (k : String) (v : β)
    (h : (l.map Prod.fst).Nodup) : ((dictUpd l k v).map Prod.fst).Nodup := by
  rcases keys_dictUpd l k v with h1 | ⟨h1, h2⟩
  · rw [h1]; exact h
  · rw [h1, ← List.concat_eq_append]
    exact List.Nodup.concat h2 h

theorem lookupL_eq_none_iff {β : Type} :
    ∀ (l : List (String × β)) (k : String),
      lookupL l k = none ↔ k ∉ l.map Prod.fst := by
  intro l
  induction l with
  | nil => intro k; simp [lookupL]
  | cons a rest ih =>
    intro k
    obtain ⟨ak, av⟩ := a
    by_cases h : ak = k
    · simp [lookupL, h]
    · rw [lookupL, if_neg h, ih k, List.map_cons]
      simp only [List.mem_cons, not_or]
      constructor
      · intro hn
        exact ⟨fun he => h he.symm, hn⟩
      · intro hn
        exact hn.2

/-- Option fallback: left value if present. -/
theorem getLast?_cons_or {α : Type} (a : α) (l : List α) :
    (a :: l).getLast? = (l.getLast?).or (some a) := by
  cases l with
  | nil => rfl
  | cons b rb =>
    rw [List.getLast?_cons_cons]
    have hs : ((b :: rb).getLast?).isSome := by
      rw [List.getLast?_isSome]
      simp
    obtain ⟨w, hw⟩ := Option.isSome_iff_exists.mp hs
    rw [hw]
    rfl

/-- Spec-side recomputation for the duplicate-name question: the coordinate
pair this row assigns to the given name, if it is a well-formed row for that
name. -/
def rowCoordFor {V : Type} (pf : String → Option V) (name : String) :
    List String → Option (V × V)
  | city :: c1 :: c2 :: _ =>
    if city = name then
      match pf c1, pf c2 with
      | some lat, some lon => some (lat, lon)
      | _, _ => none
    else none
  | _ => none

theorem cityRowStep_lookup {V : Type} (pf : String → Option V) (name : String)
    (acc : List (String × (V × V))) (r : List String) :
    lookupL (cityRowStep pf acc r) name =
      ((rowCoordFor pf name r).or (lookupL acc name)) := by
  cases r with
  | nil => simp [cityRowStep, rowCoordFor]
  | cons a t1 =>
    cases t1 with
    | nil => simp [cityRowStep, rowCoordFor]
    | cons b t2 =>
      cases t2 with
      | nil => simp [cityRowStep, rowCoordFor]
      | cons c t3 =>
        cases hb : pf b with
        | none => simp [cityRowStep, rowCoordFor, hb]
        | some lat =>
          cases hc : pf c with
          | none => simp [cityRowStep, rowCoordFor, hb, hc]
          | some lon =>
            by_cases ha : a = name
            · subst ha
              simp [cityRowStep, rowCoordFor, hb, hc, lookupL_dictUpd_self]
            · have hne : a ≠ name := ha
              simp [cityRowStep, rowCoordFor, hb, hc, ha,
                lookupL_dictUpd_ne acc a name (lat, lon) hne]

theorem parse_city_foldl_lookup {V : Type} (pf : String → Option V) (name : String) :
    ∀ (rows : List (List String)) (acc : List (String × (V × V))),
      lookupL (rows.foldl (cityRowStep pf) acc) name =
        ((rows.filterMap (rowCoordFor pf name)).getLast?).or (lookupL acc name) := by
  intro rows
  induction rows with
  | nil => intro acc; simp
  | cons r rest ih =>
    intro acc
    rw [List.foldl_cons, ih, cityRowStep_lookup]
    cases hr : rowCoordFor pf name r with
    | none => simp [List.filterMap_cons, hr]
    | some v =>
      simp only [List.filterMap_cons, hr]
      rw [getLast?_cons_or]
      cases hl : (List.filterMap (rowCoordFor pf name) rest).getLast? with
      | none => rfl
      | some wv => rfl

theorem parse_city_foldl_nodup {V : Type} (pf : String → Option V) :
    ∀ (rows : List (List String)) (acc : List (String × (V × V))),
      (acc.map Prod.fst).Nodup →
      ((rows.foldl (cityRowStep pf) acc).map Prod.fst).Nodup := by
  intro rows
  induction rows with
  | nil => intro acc h; exact h
  | cons r rest ih =>
    intro acc h
    rw [List.foldl_cons]
    refine ih _ ?_
    cases r with
    | nil => exact h
    | cons a t1 =>
      cases t1 with
      | nil => exact h
      | cons b t2 =>
        cases t2 with
        | nil => exact h
        | cons c t3 =>
          cases hb : pf b with
          | none => simpa [cityRowStep, hb] using h
          | some lat =>
            cases hc : pf c with
            | none => simpa [cityRowStep, hb, hc] using h
            | some lon =>
              simp only [cityRowStep, hb, hc]
              exact nodup_keys_dictUpd acc a (lat, lon) h

/-- C10 -/
theorem parse_city_coordinates_last_wins {V : Type} (pf : String → Option V)
    (rows : List (List String)) (name : String) :
    lookupL (parse_city_coordinates pf rows) name =
      (rows.filterMap (rowCoordFor pf name)).getLast? ∧
    ((parse_city_coordinates pf rows).map Prod.fst).Nodup := by
  constructor
  · rw [parse_city_coordinates, parse_city_foldl_lookup]
    cases (rows.filterMap (rowCoordFor pf name)).getLast? with
    | none => rfl
    | some v => rfl
  · exact parse_city_foldl_nodup pf rows [] (by simp)

theorem lookupL_isSome_of_mem {β : Type} :
    ∀ (l : List (String × β)) (k : String) (v : β),
      lookupL l k = some v → k ∈ l.map Prod.fst := by
  intro l
  induction l with
  | nil => intro k v h; simp [lookupL] at h
  | cons a rest ih =>
    intro k v h
    obtain ⟨ak, av⟩ := a
    by_cases hk : ak = k
    · simp [hk]
    · rw [lookupL, if_neg hk] at h
      simp only [List.map_cons, List.mem_cons]
      exact Or.inr (ih k v h)

theorem add_node_mem_nodes {W : Type} (g : Graph W) (v x : String) :
    x ∈ (g.add_node v).nodes ↔ x ∈ g.nodes ∨ x = v := by
  rw [Graph.add_node]
  by_cases h : v ∈ g.nodes
  · rw [if_pos h]
    constructor
    · exact Or.inl
    · rintro (hx | rfl)
      · exact hx
      · exact h
  · rw [if_neg h]
    show x ∈ g.nodes ++ [v] ↔ _
    simp

theorem add_edge_mem_nodes {W : Type} (g : Graph W) (u v x : String) (w : W) :
    x ∈ (g.add_edge u v w).nodes ↔ x ∈ g.nodes ∨ x = u ∨ x = v := by
  show x ∈ ((g.add_node u).add_node v).nodes ↔ _
  rw [add_node_mem_nodes, add_node_mem_nodes]
  tauto

theorem foldl_add_node_nodes (coords : List (String × (ℝ × ℝ))) :
    ∀ (g : Graph ℝ) (x : String),
      x ∈ (coords.foldl (fun g cw => g.add_node cw.1) g).nodes →
        x ∈ g.nodes ∨ x ∈ coords.map Prod.fst := by
  induction coords with
  | nil => intro g x h; exact Or.inl h
  | cons a rest ih =>
    intro g x h
    rw [List.foldl_cons] at h
    rcases ih (g.add_node a.1) x h with h1 | h1
    · rcases (add_node_mem_nodes g a.1 x).mp h1 with h2 | h2
      · exact Or.inl h2
      · exact Or.inr (by simp [h2])
    · exact Or.inr (by simp [h1])

theorem foldl_buildEdgeStep_nodes (coords : List (String × (ℝ × ℝ))) :
    ∀ (conns : List (String × String)) (g : Graph ℝ) (x : String),
      x ∈ (conns.foldl (buildEdgeStep coords) g).nodes →
        x ∈ g.nodes ∨ x ∈ coords.map Prod.fst := by
  intro conns
  induction conns with
  | nil => intro g x h; exact Or.inl h
  | cons c rest ih =>
    intro g x h
    rw [List.foldl_cons] at h
    rcases ih (buildEdgeStep coords g c) x h with h1 | h1
    · cases h1l : lookupL coords c.1 with
      | none =>
        rw [buildEdgeStep, h1l] at h1
        exact Or.inl h1
      | some p1 =>
        cases h2l : lookupL coords c.2 with
        | none =>
          rw [buildEdgeStep, h1l, h2l] at h1
          exact Or.inl h1
        | some p2 =>
          rw [buildEdgeStep, h1l, h2l] at h1
          rcases (add_edge_mem_nodes g c.1 c.2 x _).mp h1 with h2 | h2 | h2
          · exact Or.inl h2
          · exact Or.inr (h2 ▸ lookupL_isSome_of_mem coords c.1 p1 h1l)
          · exact Or.inr (h2 ▸ lookupL_isSome_of_mem coords c.2 p2 h2l)
    · exact Or.inr h1

/-- C9 -/
theorem malformed_records_dropped_unknown_names_excluded :
    (∀ (V : Type) (pf : String → Option V) (pre post : List (List String))
        (cells : List String),
        (∀ city c1 c2 rest, cells = city :: c1 :: c2 :: rest →
          pf c1 = none ∨ pf c2 = none) →
        parse_city_coordinates pf (pre ++ cells :: post) =
          parse_city_coordinates pf (pre ++ post)) ∧
    (∀ (pre post : List (List String)) (cells : List String),
        (∀ f t rest, cells = f :: t :: rest → f = "" ∨ t = "") →
        parse_flight_connections (pre ++ cells :: post) =
          parse_flight_connections (pre ++ post)) ∧
    (∀ (coords : List (String × (ℝ × ℝ))) (conns : List (String × String))
        (name : String), lookupL coords name = none →
        name ∉ (build_flight_graph coords conns).nodes) := by
  refine ⟨?_, ?_, ?_⟩
  · intro V pf pre post cells hbad
    have hstep : ∀ acc, cityRowStep pf acc cells = acc := by
      intro acc
      cases cells with
      | nil => rfl
      | cons a t1 =>
        cases t1 with
        | nil => rfl
        | cons b t2 =>
          cases t2 with
          | nil => rfl
          | cons c t3 =>
            rcases hbad a b c t3 rfl with h | h
            · simp [cityRowStep, h]
            · cases hb : pf b with
              | none => simp [cityRowStep, hb]
              | some lat => simp [cityRowStep, hb, h]
    rw [parse_city_coordinates, parse_city_coordinates, List.foldl_append,
      List.foldl_append, List.foldl_cons, hstep]
  · intro pre post cells hbad
    have hstep : ∀ acc, connRowStep acc cells = acc := by
      intro acc
      cases cells with
      | nil => rfl
      | cons f t1 =>
        cases t1 with
        | nil => rfl
        | cons t t2 =>
          rcases hbad f t t2 rfl with h | h
          · simp [connRowStep, h]
          · simp [connRowStep, h]
    rw [parse_flight_connections, parse_flight_connections, List.foldl_append,
      List.foldl_append, List.foldl_cons, hstep]
  · intro coords conns name hnone hmem
    rw [build_flight_graph] at hmem
    rcases foldl_buildEdgeStep_nodes coords conns _ name hmem with h1 | h1
    · rcases foldl_add_node_nodes coords ⟨[], []⟩ name h1 with h2 | h2
      · simp at h2
      · exact (lookupL_eq_none_iff coords name).mp hnone h2
    · exact (lookupL_eq_none_iff coords name).mp hnone h1

/-- Witness for C9: a coordinate row whose cells do not parse contributes
nothing, a connection row with an empty endpoint contributes nothing, and a
name with no coordinate is not a node of the built graph. -/
theorem malformed_records_dropped_witness :
    parse_city_coordinates (fun _ => (none : Option ℚ)) [["X", "a", "b"]] = [] ∧
    parse_flight_connections [["", "B"]] = [] ∧
    "B" ∉ (build_flight_graph [("A", ((0 : ℝ), 0))] [("A", "A")]).nodes := by
  have h := malformed_records_dropped_unknown_names_excluded
  refine ⟨?_, ?_, ?_⟩
  · have h1 := h.1 ℚ (fun _ => none) [] [] ["X", "a", "b"]
      (fun _ _ _ _ _ => Or.inl rfl)
    simpa using h1
  · have h2 := h.2.1 [] [] ["", "B"]
      (fun f t rest hc => by
        injection hc with h1 h2
        exact Or.inl h1.symm)
    simpa using h2
  · exact h.2.2 [("A", ((0 : ℝ), 0))] [("A", "A")] "B" rfl

/-! The builder's edge set as unordered endpoint pairs. -/

/-- The endpoint pair of an edge record. -/
def epair {W : Type} (e : String × String × W) : String × String := (e.1, e.2.1)

/-- Spec-side recomputation of which connections survive the builder: both
endpoints known, deduplicated as unordered pairs, in insertion order. -/
def keptPairStep {α : Type} (coordinates : List (String × α))
    (acc : List (String × String)) (c : String × String) : List (String × String) :=
  if (lookupL coordinates c.1).isSome ∧ (lookupL coordinates c.2).isSome then
    if acc.any (fun q => sameEdgeB q c) then acc else acc ++ [c]
  else acc

/-- The connections whose both endpoints are known, collapsed by unordered
endpoint pair. -/
def keptPairs {α : Type} (coordinates : List (String × α))
    (connections : List (String × String)) : List (String × String) :=
  connections.foldl (keptPairStep coordinates) []

/-- Edge count as the spec words it for C6: connections with both endpoints
known, minus self-loops and duplicates. -/
def specEdgeCount {α : Type} (coordinates : List (String × α))
    (connections : List (String × String)) : Nat :=
  (connections.foldl
    (fun acc c =>
      if (lookupL coordinates c.1).isSome ∧ (lookupL coordinates c.2).isSome ∧ c.1 ≠ c.2 then
        if acc.any (fun q => sameEdgeB q c) then acc else acc ++ [c]
      else acc) []).length

theorem add_node_edges {W : Type} (g : Graph W) (v : String) :
    (g.add_node v).edges = g.edges := by
  rw [Graph.add_node]
  split <;> rfl

theorem add_edge_edges {W : Type} (g : Graph W) (u v : String) (w : W) :
    (g.add_edge u v w).edges = updEdge g.edges u v w := by
  show updEdge ((g.add_node u).add_node v).edges u v w = updEdge g.edges u v w
  rw [add_node_edges, add_node_edges]

theorem updEdge_map_epair_mem {W : Type} :
    ∀ (edges : List (String × String × W)) (u v : String) (w : W),
      (∃ e ∈ edges, sameEdgeB (epair e) (u, v) = true) →
      (updEdge edges u v w).map epair = edges.map epair := by
  intro edges
  induction edges with
  | nil => intro u v w h; simp at h
  | cons e rest ih =>
    intro u v w h
    by_cases he : sameEdgeB (e.1, e.2.1) (u, v) = true
    · rw [updEdge, if_pos he]
      rfl
    · rw [updEdge, if_neg he, List.map_cons, List.map_cons]
      congr 1
      rcases h with ⟨e0, he0, hs⟩
      rcases List.mem_cons.mp he0 with rfl | he0
      · exact absurd hs he
      · exact ih u v w ⟨e0, he0, hs⟩

theorem updEdge_map_epair_new {W : Type} :
    ∀ (edges : List (String × String × W)) (u v : String) (w : W),
      (∀ e ∈ edges, sameEdgeB (epair e) (u, v) = false) →
      (updEdge edges u v w).map epair = edges.map epair ++ [(u, v)] := by
  intro edges
  induction edges with
  | nil => intro u v w h; rfl
  | cons e rest ih =>
    intro u v w h
    have he := h e (List.mem_cons_self e rest)
    rw [updEdge, if_neg (by rw [show ((e.1, e.2.1) : String × String) = epair e from rfl, he]; simp),
      List.map_cons, ih u v w (fun x hx => h x (List.mem_cons_of_mem e hx))]
    rfl

theorem foldl_add_node_edges :
    ∀ (cs : List (String × (ℝ × ℝ))) (g : Graph ℝ),
      (cs.foldl (fun g cw => g.add_node cw.1) g).edges = g.edges := by
  intro cs
  induction cs with
  | nil => intro g; rfl
  | cons a rest ih =>
    intro g
    rw [List.foldl_cons, ih, add_node_edges]

theorem build_fold_pairs (coords : List (String × (ℝ × ℝ))) :
    ∀ (conns : List (String × String)) (g : Graph ℝ),
      (conns.foldl (buildEdgeStep coords) g).edges.map epair =
        conns.foldl (keptPairStep coords) (g.edges.map epair) := by
  intro conns
  induction conns with
  | nil => intro g; rfl
  | cons c rest ih =>
    intro g
    rw [List.foldl_cons, List.foldl_cons, ih]
    congr 1
    cases h1 : lookupL coords c.1 with
    | none =>
      rw [buildEdgeStep, h1, keptPairStep, if_neg (by simp [h1])]
    | some p1 =>
      cases h2 : lookupL coords c.2 with
      | none =>
        rw [buildEdgeStep, h1, h2, keptPairStep, if_neg (by simp [h2])]
      | some p2 =>
        rw [buildEdgeStep, h1, h2, keptPairStep, if_pos (by simp [h1, h2]),
          add_edge_edges]
        cases hany : (g.edges.map epair).any (fun q => sameEdgeB q c) with
        | true =>
          rw [if_pos rfl]
          rcases List.any_eq_true.mp hany with ⟨q, hq, hqs⟩
          rcases List.mem_map.mp hq with ⟨e0, he0, rfl⟩
          exact updEdge_map_epair_mem g.edges c.1 c.2 _ ⟨e0, he0, hqs⟩
        | false =>
          rw [if_neg (by simp)]
          have hall : ∀ e ∈ g.edges, sameEdgeB (epair e) (c.1, c.2) = false := by
            intro e he
            have := List.any_eq_false.mp (by rw [hany]) (epair e) (List.mem_map_of_mem epair he)
            simpa using this
          rw [updEdge_map_epair_new g.edges c.1 c.2 _ hall]

theorem build_pairs (coords : List (String × (ℝ × ℝ))) (conns : List (String × String)) :
    (build_flight_graph coords conns).edges.map epair = keptPairs coords conns := by
  rw [build_flight_graph, keptPairs, build_fold_pairs, foldl_add_node_edges]
  rfl

theorem sameEdgeB_self_iff (q : String × String) (u : String) :
    sameEdgeB q (u, u) = true ↔ q = (u, u) := by
  simp [sameEdgeB, Prod.ext_iff]

theorem keptPairStep_mem_other {α : Type} (coords : List (String × α))
    (c : String × String) (u : String) (hc : ¬ c = (u, u)) (acc : List (String × String)) :
    ((u, u) ∈ keptPairStep coords acc c ↔ (u, u) ∈ acc) := by
  rw [keptPairStep]
  have hne : ¬ ((u, u) = c) := fun h => hc h.symm
  split
  · split
    · exact Iff.rfl
    · simp [List.mem_append, hne]
  · exact Iff.rfl

theorem keptPairs_self_mem {α : Type} (coords : List (String × α)) (u : String) :
    ∀ (conns : List (String × String)) (acc : List (String × String)),
      ((u, u) ∈ conns.foldl (keptPairStep coords) acc ↔
        (u, u) ∈ acc ∨ ((lookupL coords u).isSome = true ∧ (u, u) ∈ conns)) := by
  intro conns
  induction conns with
  | nil => intro acc; simp
  | cons c rest ih =>
    intro acc
    rw [List.foldl_cons, ih]
    by_cases hc : c = (u, u)
    · subst hc
      rw [keptPairStep]
      by_cases hk : (lookupL coords u).isSome = true
      · rw [if_pos ⟨hk, hk⟩]
        cases hany : acc.any (fun q => sameEdgeB q (u, u)) with
        | true =>
          have hmem : (u, u) ∈ acc := by
            rcases List.any_eq_true.mp hany with ⟨q, hq, hqe⟩
            rwa [← (sameEdgeB_self_iff q u).mp hqe]
          rw [if_pos rfl]
          simp [hmem, hk]
        | false =>
          rw [if_neg (by simp)]
          simp [hk, List.mem_append]
      · rw [if_neg (fun hcon => hk hcon.1)]
        simp [hk]
    · rw [keptPairStep_mem_other coords c u hc acc]
      have hne : ¬ ((u, u) = c) := fun h => hc h.symm
      simp [List.mem_cons, hne]

/-- C2 counterexample: on the one-city table A with the self-referencing
connection (A, A), the built graph does contain the self-loop edge A-A --
the source has no self-loop filter, so the claimed invariant fails. -/
theorem build_self_loop_counterexample :
    ("A", "A", calculate_haversine_distance ((0 : ℝ), 0) ((0 : ℝ), 0)) ∈
      (build_flight_graph [("A", ((0 : ℝ), 0))] [("A", "A")]).edges := by
  simp [build_flight_graph, buildEdgeStep, Graph.add_edge, Graph.add_node, updEdge,
    lookupL, sameEdgeB]

/-- C2 amended: the built graph contains the self-loop at u exactly when some
connection is the pair (u, u) and u has a coordinate; self-referencing pairs
are not dropped. -/
theorem build_self_loop_iff_connection (coords : List (String × (ℝ × ℝ)))
    (conns : List (String × String)) (u : String) :
    ((u, u) ∈ (build_flight_graph coords conns).edges.map epair) ↔
      ((lookupL coords u).isSome = true ∧ (u, u) ∈ conns) := by
  rw [build_pairs, keptPairs, keptPairs_self_mem]
  simp

/-- C6 counterexample: same input; the code builds 1 edge (the self-loop)
while the spec formula -- both-endpoints-known connections minus self-loops
and duplicates -- counts 0. -/
theorem build_edge_count_counterexample :
    (build_flight_graph [("A", ((0 : ℝ), 0))] [("A", "A")]).edges.length = 1 ∧
      specEdgeCount [("A", ((0 : ℝ), 0))] [("A", "A")] = 0 := ⟨rfl, rfl⟩

/-- C6 amended: the builder drops connections with an unknown endpoint and
collapses duplicates (in either orientation) to one edge; the edge records,
as unordered endpoint pairs, are exactly the deduplicated both-known
connections -- self-loops included -- so the edge count equals the count of
distinct unordered pairs among both-known connections. -/
theorem build_edges_are_kept_connections (coords : List (String × (ℝ × ℝ)))
    (conns : List (String × String)) :
    (build_flight_graph coords conns).edges.map epair = keptPairs coords conns ∧
      (build_flight_graph coords conns).edges.length = (keptPairs coords conns).length := by
  refine ⟨build_pairs coords conns, ?_⟩
  rw [← build_pairs coords conns, List.length_map]

/-! Edge lookup, neighbour, path-weight and connectivity lemmas. -/

theorem sameEdgeB_iff (p q : String × String) :
    sameEdgeB p q = true ↔ (p.1 = q.1 ∧ p.2 = q.2) ∨ (p.1 = q.2 ∧ p.2 = q.1) := by
  simp [sameEdgeB]

theorem sameEdgeB_trans {p q r : String × String}
    (h1 : sameEdgeB p q = true) (h2 : sameEdgeB q r = true) :
    sameEdgeB p r = true := by
  rw [sameEdgeB_iff] at h1 h2 ⊢
  rcases h1 with ⟨a1, a2⟩ | ⟨a1, a2⟩ <;> rcases h2 with ⟨b1, b2⟩ | ⟨b1, b2⟩
  · exact Or.inl ⟨a1.trans b1, a2.trans b2⟩
  · exact Or.inr ⟨a1.trans b1, a2.trans b2⟩
  · exact Or.inr ⟨a1.trans b2, a2.trans b1⟩
  · exact Or.inl ⟨a1.trans b2, a2.trans b1⟩

theorem sameEdgeB_symm {p q : String × String} (h : sameEdgeB p q = true) :
    sameEdgeB q p = true := by
  rw [sameEdgeB_iff] at h ⊢
  rcases h with ⟨a1, a2⟩ | ⟨a1, a2⟩
  · exact Or.inl ⟨a1.symm, a2.symm⟩
  · exact Or.inr ⟨a2.symm, a1.symm⟩

theorem findEdge_isSome_of_mem {W : Type} :
    ∀ (edges : List (String × String × W)) (u v : String),
      (∃ e ∈ edges, sameEdgeB (epair e) (u, v) = true) →
      (findEdge edges u v).isSome = true := by
  intro edges
  induction edges with
  | nil => intro u v h; simp at h
  | cons e rest ih =>
    intro u v h
    by_cases he : sameEdgeB (e.1, e.2.1) (u, v) = true
    · rw [findEdge, if_pos he]
      rfl
    · rw [findEdge, if_neg he]
      rcases h with ⟨e0, he0, hs⟩
      rcases List.mem_cons.mp he0 with rfl | he0
      · exact absurd hs he
      · exact ih u v ⟨e0, he0, hs⟩

theorem findEdge_of_matching_mem {W : Type} :
    ∀ (edges : List (String × String × W)),
      edges.Pairwise (fun e f => sameEdgeB (epair e) (epair f) = false) →
      ∀ (e0 : String × String × W) (u v : String), e0 ∈ edges →
        sameEdgeB (epair e0) (u, v) = true →
        findEdge edges u v = some e0.2.2 := by
  intro edges
  induction edges with
  | nil => intro _ e0 u v h; simp at h
  | cons e rest ih =>
    intro hpw e0 u v hmem hs
    rcases List.pairwise_cons.mp hpw with ⟨hhead, htail⟩
    rcases List.mem_cons.mp hmem with rfl | hmem
    · rw [findEdge, if_pos (show sameEdgeB (e0.1, e0.2.1) (u, v) = true from hs)]
    · by_cases he : sameEdgeB (e.1, e.2.1) (u, v) = true
      · exfalso
        have : sameEdgeB (epair e) (epair e0) = true :=
          sameEdgeB_trans he (sameEdgeB_symm hs)
        rw [hhead e0 hmem] at this
        exact Bool.false_ne_true this
      · rw [findEdge, if_neg he]
        exact ih htail e0 u v hmem hs

theorem nbrs_mem_edges {W : Type} (g : Graph W) (v : String) :
    ∀ uc ∈ g.nbrs v, ∃ e ∈ g.edges, sameEdgeB (epair e) (v, uc.1) = true ∧ e.2.2 = uc.2 := by
  intro uc huc
  obtain ⟨u0, c0⟩ := uc
  rcases List.mem_filterMap.mp huc with ⟨e, he, hfe⟩
  refine ⟨e, he, ?_⟩
  by_cases h1 : e.1 = v
  · rw [if_pos h1] at hfe
    simp [Prod.ext_iff] at hfe
    simp [epair, sameEdgeB_iff, h1, hfe.1, hfe.2]
  · rw [if_neg h1] at hfe
    by_cases h2 : e.2.1 = v
    · rw [if_pos h2] at hfe
      simp [Prod.ext_iff] at hfe
      simp [epair, sameEdgeB_iff, h2, hfe.1, hfe.2]
    · rw [if_neg h2] at hfe
      simp at hfe

theorem nbrs_edgeIn {W : Type} (g : Graph W) (v : String) :
    ∀ uc ∈ g.nbrs v, edgeIn g v uc.1 := by
  intro uc huc
  obtain ⟨e, he, hs, _⟩ := nbrs_mem_edges g v uc huc
  exact findEdge_isSome_of_mem g.edges v uc.1 ⟨e, he, hs⟩

theorem nbrs_getEdge {W : Type} (g : Graph W) (hwf : g.EdgesWF) (v : String) :
    ∀ uc ∈ g.nbrs v, g.getEdge v uc.1 = some uc.2 := by
  intro uc huc
  obtain ⟨e, he, hs, hw⟩ := nbrs_mem_edges g v uc huc
  rw [Graph.getEdge, findEdge_of_matching_mem g.edges hwf e v uc.1 he hs, hw]

theorem nbrs_nonneg {W : Type} [LinearOrderedAddCommMonoid W] (g : Graph W)
    (hnn : g.NonnegW) (v : String) : ∀ uc ∈ g.nbrs v, (0 : W) ≤ uc.2 := by
  intro uc huc
  obtain ⟨e, he, _, hw⟩ := nbrs_mem_edges g v uc huc
  exact hw ▸ hnn e he

theorem pathW_append {W : Type} [LinearOrderedAddCommMonoid W] (g : Graph W) :
    ∀ (p : List String) (v u : String) (w : W), p ≠ [] → p.getLast? = some v →
      g.getEdge v u = some w → pathW g (p ++ [u]) = pathW g p + w := by
  intro p
  induction p with
  | nil => intro v u w h; exact absurd rfl h
  | cons a rest ih =>
    intro v u w _ hlast hedge
    cases rest with
    | nil =>
      simp at hlast
      subst hlast
      show (g.getEdge a u).getD 0 + pathW g [u] = pathW g [a] + w
      rw [hedge]
      show w + 0 = 0 + w
      rw [add_zero, zero_add]
    | cons b rb =>
      rw [List.getLast?_cons_cons] at hlast
      show (g.getEdge a b).getD 0 + pathW g ((b :: rb) ++ [u]) =
        ((g.getEdge a b).getD 0 + pathW g (b :: rb)) + w
      rw [ih v u w (by simp) hlast hedge, add_assoc]

theorem chain_append_edge {W : Type} (g : Graph W) (p : List String) (v u : String)
    (hchain : List.Chain' (edgeIn g) p) (hlast : p.getLast? = some v)
    (hedge : edgeIn g v u) : List.Chain' (edgeIn g) (p ++ [u]) := by
  rw [List.chain'_append]
  refine ⟨hchain, List.chain'_singleton u, ?_⟩
  intro x hx y hy
  rw [hlast] at hx
  simp at hx hy
  subst hx
  subst hy
  exact hedge

theorem chain_reach {W : Type} (g : Graph W) :
    ∀ (p : List String) (s x : String), p.head? = some s → p.getLast? = some x →
      List.Chain' (edgeIn g) p → Reach g s x := by
  intro p
  induction p with
  | nil => intro s x h; simp at h
  | cons a rest ih =>
    intro s x hhead hlast hchain
    simp at hhead
    subst hhead
    cases rest with
    | nil =>
      simp at hlast
      subst hlast
      exact Relation.ReflTransGen.refl
    | cons b rb =>
      rw [List.getLast?_cons_cons] at hlast
      rcases List.chain'_cons.mp hchain with ⟨hab, hrest⟩
      exact Relation.ReflTransGen.head hab (ih b x rfl hlast hrest)

/-! The search-state invariant of the Dijkstra loop. -/

theorem head?_append_ne {α : Type} (p q : List α) (h : p ≠ []) :
    (p ++ q).head? = p.head? := by
  cases p with
  | nil => exact absurd rfl h
  | cons a t => rfl

/-- Invariant tying the relaxation state to the finalized distances: every
stored path is a real path of the graph from the source; every finalized and
every tentative distance is (under the graph representation invariant) the
recomputed weight of its stored path; every tentatively-known,
not-yet-finalized node has a heap entry at its tentative distance; and every
heap entry is at or above its node's tentative distance. -/
structure RInv {W : Type} [LinearOrderedAddCommMonoid W] (g : Graph W) (s : String)
    (dist : List (String × W)) (r : Relax W) : Prop where
  pathsOK : ∀ x p, lookupL r.paths x = some p →
    p ≠ [] ∧ p.head? = some s ∧ p.getLast? = some x ∧ List.Chain' (edgeIn g) p
  distOK : ∀ x dx, lookupL dist x = some dx →
    ∃ p, lookupL r.paths x = some p ∧ (g.EdgesWF → pathW g p = dx)
  seenOK : ∀ x dx, lookupL r.seen x = some dx → lookupL dist x = none →
    (∃ p, lookupL r.paths x = some p ∧ (g.EdgesWF → pathW g p = dx)) ∧
      ∃ c, (dx, c, x) ∈ r.fringe
  fringeSeen : ∀ e ∈ r.fringe, ∃ dx, lookupL r.seen e.2.2 = some dx ∧ dx ≤ e.1

/-- Pushing a neighbour u (fresh, or strictly improved) preserves the
relaxation invariant. -/
theorem RInv_push {W : Type} [LinearOrderedAddCommMonoid W] (g : Graph W)
    (s v : String) (dist : List (String × W)) (pv : List String) (d : W)
    (hne : pv ≠ []) (hhead : pv.head? = some s) (hlast : pv.getLast? = some v)
    (hchain : List.Chain' (edgeIn g) pv) (hpw : g.EdgesWF → pathW g pv = d)
    (u : String) (cost : W)
    (hedgeE : ∃ e ∈ g.edges, sameEdgeB (epair e) (v, u) = true ∧ e.2.2 = cost)
    (r : Relax W) (hr : RInv g s dist r)
    (hdistu : lookupL dist u = none)
    (hlt : ∀ su, lookupL r.seen u = some su → d + cost < su) :
    RInv g s dist ⟨dictUpd r.seen u (d + cost), dictUpd r.paths u (pv ++ [u]),
      r.fringe ++ [(d + cost, r.counter, u)], r.counter + 1⟩ := by
  have hedgeIn : edgeIn g v u := by
    obtain ⟨e, he, hs2, _⟩ := hedgeE
    exact findEdge_isSome_of_mem g.edges v u ⟨e, he, hs2⟩
  have hget : g.EdgesWF → g.getEdge v u = some cost := by
    intro hwf
    obtain ⟨e, he, hs2, hw⟩ := hedgeE
    rw [Graph.getEdge, findEdge_of_matching_mem g.edges hwf e v u he hs2, hw]
  refine ⟨?_, ?_, ?_, ?_⟩
  · intro x p hp
    by_cases hx : u = x
    · subst hx
      rw [lookupL_dictUpd_self] at hp
      injection hp with hp
      subst hp
      refine ⟨by simp, ?_, List.getLast?_concat _, ?_⟩
      · rw [head?_append_ne pv [u] hne, hhead]
      · exact chain_append_edge g pv v u hchain hlast hedgeIn
    · rw [lookupL_dictUpd_ne r.paths u x _ hx] at hp
      exact hr.pathsOK x p hp
  · intro x dx hdx
    have hx : u ≠ x := fun h => by rw [h, hdx] at hdistu; cases hdistu
    rw [lookupL_dictUpd_ne r.paths u x _ hx]
    exact hr.distOK x dx hdx
  · intro x dx hdx hdistx
    by_cases hx : u = x
    · subst hx
      rw [lookupL_dictUpd_self] at hdx
      injection hdx with hdx
      subst hdx
      constructor
      · refine ⟨pv ++ [u], by rw [lookupL_dictUpd_self], ?_⟩
        intro hwf
        rw [pathW_append g pv v u cost hne hlast (hget hwf), hpw hwf]
      · exact ⟨r.counter, by simp⟩
    · rw [lookupL_dictUpd_ne r.seen u x _ hx] at hdx
      obtain ⟨⟨p0, hp0, hw0⟩, ⟨c0, hc0⟩⟩ := hr.seenOK x dx hdx hdistx
      refine ⟨⟨p0, ?_, hw0⟩, ⟨c0, List.mem_append_left _ hc0⟩⟩
      rw [lookupL_dictUpd_ne r.paths u x _ hx]
      exact hp0
  · intro e he
    rcases List.mem_append.mp he with he | he
    · obtain ⟨dx, hdx, hle⟩ := hr.fringeSeen e he
      by_cases hx : u = e.2.2
      · rw [← hx] at hdx
        refine ⟨d + cost, ?_, le_of_lt (lt_of_lt_of_le (hlt dx hdx) hle)⟩
        rw [← hx, lookupL_dictUpd_self]
      · rw [lookupL_dictUpd_ne r.seen u e.2.2 _ hx]
        exact ⟨dx, hdx, hle⟩
    · simp at he
      rw [he]
      refine ⟨d + cost, ?_, le_refl _⟩
      show lookupL (dictUpd r.seen u (d + cost)) u = some (d + cost)
      exact lookupL_dictUpd_self r.seen u (d + cost)

/-- The whole neighbour relaxation preserves the invariant. -/
theorem relaxNbrs_inv {W : Type} [LinearOrderedAddCommMonoid W] (g : Graph W)
    (s v : String) (dist : List (String × W)) (pv : List String) (d : W)
    (hne : pv ≠ []) (hhead : pv.head? = some s) (hlast : pv.getLast? = some v)
    (hchain : List.Chain' (edgeIn g) pv) (hpw : g.EdgesWF → pathW g pv = d) :
    ∀ (l : List (String × W)) (r r' : Relax W),
      (∀ uc ∈ l, ∃ e ∈ g.edges, sameEdgeB (epair e) (v, uc.1) = true ∧ e.2.2 = uc.2) →
      relaxNbrs dist pv d l r = some r' →
      RInv g s dist r → RInv g s dist r' := by
  intro l
  induction l with
  | nil =>
    intro r r' _ heq hr
    rw [relaxNbrs] at heq
    injection heq with heq
    exact heq ▸ hr
  | cons uc rest ih =>
    obtain ⟨u, cost⟩ := uc
    intro r r' hedges heq hr
    have hedgeU := hedges (u, cost) (List.mem_cons_self _ _)
    have hedgesR : ∀ uc ∈ rest, ∃ e ∈ g.edges,
        sameEdgeB (epair e) (v, uc.1) = true ∧ e.2.2 = uc.2 :=
      fun uc huc => hedges uc (List.mem_cons_of_mem _ huc)
    cases hdu : lookupL dist u with
    | some du =>
      simp only [relaxNbrs, hdu] at heq
      by_cases hc : d + cost < du
      · rw [if_pos hc] at heq
        cases heq
      · rw [if_neg hc] at heq
        exact ih r r' hedgesR heq hr
    | none =>
      cases hsu : lookupL r.seen u with
      | some su =>
        simp only [relaxNbrs, hdu, hsu] at heq
        by_cases hc : d + cost < su
        · rw [if_pos hc] at heq
          exact ih _ r' hedgesR heq
            (RInv_push g s v dist pv d hne hhead hlast hchain hpw u cost hedgeU r hr hdu
              (fun su' h => by
                rw [hsu] at h
                injection h with h
                rw [← h]
                exact hc))
        · rw [if_neg hc] at heq
          exact ih r r' hedgesR heq hr
      | none =>
        simp only [relaxNbrs, hdu, hsu] at heq
        exact ih _ r' hedgesR heq
          (RInv_push g s v dist pv d hne hhead hlast hchain hpw u cost hedgeU r hr hdu
            (fun su' h => by rw [hsu] at h; cases h))

/-- With nonnegative costs and all finalized distances at or below the
popped distance, the relaxation cannot raise the contradictory-paths error,
and every fringe entry it adds carries a key at or above the popped
distance. -/
theorem relaxNbrs_some {W : Type} [LinearOrderedAddCommMonoid W]
    (dist : List (String × W)) (pv : List String) (d : W) :
    ∀ (l : List (String × W)) (r : Relax W),
      (∀ uc ∈ l, (0 : W) ≤ uc.2) →
      (∀ x dx, lookupL dist x = some dx → dx ≤ d) →
      ∃ r', relaxNbrs dist pv d l r = some r' ∧
        ∀ e ∈ r'.fringe, e ∈ r.fringe ∨ d ≤ e.1 := by
  intro l
  induction l with
  | nil =>
    intro r _ _
    exact ⟨r, rfl, fun e he => Or.inl he⟩
  | cons uc rest ih =>
    obtain ⟨u, cost⟩ := uc
    intro r hnn hd
    have hcost : (0 : W) ≤ cost := hnn (u, cost) (List.mem_cons_self _ _)
    have hnnR : ∀ uc ∈ rest, (0 : W) ≤ uc.2 :=
      fun uc huc => hnn uc (List.mem_cons_of_mem _ huc)
    cases hdu : lookupL dist u with
    | some du =>
      have hnlt : ¬ (d + cost < du) :=
        not_lt.mpr (le_trans (hd u du hdu) (le_add_of_nonneg_right hcost))
      obtain ⟨r', heq, hfr⟩ := ih r hnnR hd
      refine ⟨r', ?_, hfr⟩
      simp only [relaxNbrs, hdu, if_neg hnlt]
      exact heq
    | none =>
      cases hsu : lookupL r.seen u with
      | some su =>
        by_cases hc : d + cost < su
        · obtain ⟨r', heq, hfr⟩ := ih
            ⟨dictUpd r.seen u (d + cost), dictUpd r.paths u (pv ++ [u]),
              r.fringe ++ [(d + cost, r.counter, u)], r.counter + 1⟩ hnnR hd
          refine ⟨r', ?_, ?_⟩
          · simp only [relaxNbrs, hdu, hsu, if_pos hc]
            exact heq
          · intro e he
            rcases hfr e he with he2 | he2
            · rcases List.mem_append.mp he2 with he3 | he3
              · exact Or.inl he3
              · simp at he3
                right
                rw [he3]
                exact le_add_of_nonneg_right hcost
            · exact Or.inr he2
        · obtain ⟨r', heq, hfr⟩ := ih r hnnR hd
          refine ⟨r', ?_, hfr⟩
          simp only [relaxNbrs, hdu, hsu, if_neg hc]
          exact heq
      | none =>
        obtain ⟨r', heq, hfr⟩ := ih
          ⟨dictUpd r.seen u (d + cost), dictUpd r.paths u (pv ++ [u]),
            r.fringe ++ [(d + cost, r.counter, u)], r.counter + 1⟩ hnnR hd
        refine ⟨r', ?_, ?_⟩
        · simp only [relaxNbrs, hdu, hsu]
          exact heq
        · intro e he
          rcases hfr e he with he2 | he2
          · rcases List.mem_append.mp he2 with he3 | he3
            · exact Or.inl he3
            · simp at he3
              right
              rw [he3]
              exact le_add_of_nonneg_right hcost
          · exact Or.inr he2

/-- The loop invariant, as the relaxation invariant over the state's own
finalized distances. -/
def DInv {W : Type} [LinearOrderedAddCommMonoid W] (g : Graph W) (s : String)
    (st : DState W) : Prop :=
  RInv g s st.dist ⟨st.seen, st.paths, st.fringe, st.counter⟩

/-- The invariant holds for the initial search state. -/
theorem DInv_init {W : Type} [LinearOrderedAddCommMonoid W] (g : Graph W) (s : String) :
    DInv g s ⟨[], [(s, 0)], [(s, [s])], [(0, 0, s)], 1⟩ := by
  refine ⟨?_, ?_, ?_, ?_⟩
  · intro x p hp
    show (p ≠ []) ∧ _
    by_cases hx : s = x
    · subst hx
      rw [lookupL, if_pos rfl] at hp
      injection hp with hp
      subst hp
      exact ⟨by simp, rfl, rfl, List.chain'_singleton s⟩
    · rw [lookupL, if_neg hx, lookupL] at hp
      cases hp
  · intro x dx hdx
    rw [lookupL] at hdx
    cases hdx
  · intro x dx hdx _
    by_cases hx : s = x
    · subst hx
      rw [lookupL, if_pos rfl] at hdx
      injection hdx with hdx
      subst hdx
      refine ⟨⟨[s], by rw [lookupL, if_pos rfl], fun _ => rfl⟩, ⟨0, ?_⟩⟩
      simp
    · rw [lookupL, if_neg hx, lookupL] at hdx
      cases hdx
  · intro e he
    simp at he
    subst he
    exact ⟨0, by rw [lookupL, if_pos rfl], le_refl 0⟩

/-- Finalized distances sit at or below every heap key. -/
def MInvP {W : Type} [LinearOrderedAddCommMonoid W] (st : DState W) : Prop :=
  ∀ x dx, lookupL st.dist x = some dx → ∀ e ∈ st.fringe, dx ≤ e.1

theorem MInvP_init {W : Type} [LinearOrderedAddCommMonoid W] (s : String) :
    MInvP (⟨[], [(s, 0)], [(s, [s])], [(0, 0, s)], 1⟩ : DState W) := by
  intro x dx hdx
  rw [lookupL] at hdx
  cases hdx

/-- Safety of the Dijkstra loop: whenever it finishes, every recorded path
is a real path of the graph from the source ending at its key, and (under
the representation invariant) every finalized distance is the recomputed
weight of the recorded path. -/
theorem dloop_inv {W : Type} [LinearOrderedAddCommMonoid W] (g : Graph W)
    (s target : String) :
    ∀ (fuel : Nat) (st : DState W), DInv g s st →
      ∀ dist paths, dloop g target fuel st = .finished dist paths →
        (∀ x p, lookupL paths x = some p →
          p ≠ [] ∧ p.head? = some s ∧ p.getLast? = some x ∧ List.Chain' (edgeIn g) p) ∧
        (∀ x d, lookupL dist x = some d →
          ∃ p, lookupL paths x = some p ∧ (g.EdgesWF → pathW g p = d)) := by
  intro fuel
  induction fuel with
  | zero =>
    intro st hinv dist paths heq
    rw [dloop] at heq
    injection heq with h1 h2
    subst h1
    subst h2
    exact ⟨hinv.pathsOK, hinv.distOK⟩
  | succ fuel ih =>
    intro st hinv dist paths heq
    cases hpop : popMin st.fringe with
    | none =>
      simp only [dloop, hpop] at heq
      injection heq with h1 h2
      subst h1
      subst h2
      exact ⟨hinv.pathsOK, hinv.distOK⟩
    | some er =>
      obtain ⟨⟨d, c, v⟩, rest⟩ := er
      cases hdv : lookupL st.dist v with
      | some dv0 =>
        simp only [dloop, hpop, hdv] at heq
        refine ih ⟨st.dist, st.seen, st.paths, rest, st.counter⟩
          ⟨hinv.pathsOK, hinv.distOK, ?_, ?_⟩ dist paths heq
        · intro x dx hdx hdistx
          obtain ⟨hpp, ⟨c0, hc0⟩⟩ := hinv.seenOK x dx hdx hdistx
          refine ⟨hpp, ⟨c0, ?_⟩⟩
          rcases popMin_cover hpop (dx, c0, x) hc0 with he | he
          · exfalso
            have hxv : x = v := congrArg (fun t => t.2.2) he
            rw [hxv, hdv] at hdistx
            cases hdistx
          · exact he
        · intro e he
          exact hinv.fringeSeen e (popMin_sub hpop e he)
      | none =>
        have hpm := popMin_mem hpop
        obtain ⟨d', hd', hled⟩ := hinv.fringeSeen (d, c, v) hpm
        obtain ⟨⟨p0, hp0, hw0⟩, ⟨c0, hc0⟩⟩ := hinv.seenOK v d' hd' hdv
        have hdd : d = d' := by
          rcases popMin_lexmin hpop (d', c0, v) hc0 with h2 | h2
          · exact absurd hled (not_le.mpr h2)
          · exact h2.1
        subst hdd
        obtain ⟨hne0, hhead0, hlast0, hchain0⟩ := hinv.pathsOK v p0 hp0
        have hdistOK1 : ∀ x dx, lookupL ((v, d) :: st.dist) x = some dx →
            ∃ p, lookupL st.paths x = some p ∧ (g.EdgesWF → pathW g p = dx) := by
          intro x dx hdx
          rw [lookupL] at hdx
          by_cases hvx : v = x
          · rw [if_pos hvx] at hdx
            injection hdx with hdx
            subst hdx
            exact ⟨p0, hvx ▸ hp0, hw0⟩
          · rw [if_neg hvx] at hdx
            exact hinv.distOK x dx hdx
        by_cases hvt : v = target
        · simp only [dloop, hpop, hdv, if_pos hvt] at heq
          injection heq with h1 h2
          subst h1
          subst h2
          exact ⟨hinv.pathsOK, hdistOK1⟩
        · simp only [dloop, hpop, hdv, if_neg hvt, hp0, Option.getD_some] at heq
          cases hrel : relaxNbrs ((v, d) :: st.dist) p0 d (g.nbrs v)
              ⟨st.seen, st.paths, rest, st.counter⟩ with
          | none =>
            rw [hrel] at heq
            cases heq
          | some r' =>
            rw [hrel] at heq
            have hr0 : RInv g s ((v, d) :: st.dist) ⟨st.seen, st.paths, rest, st.counter⟩ := by
              refine ⟨hinv.pathsOK, hdistOK1, ?_, ?_⟩
              · intro x dx hdx hdistx
                have hvx : ¬ (v = x) := by
                  intro hvx
                  rw [lookupL, if_pos hvx] at hdistx
                  cases hdistx
                rw [lookupL, if_neg hvx] at hdistx
                obtain ⟨hpp, ⟨c1, hc1⟩⟩ := hinv.seenOK x dx hdx hdistx
                refine ⟨hpp, ⟨c1, ?_⟩⟩
                rcases popMin_cover hpop (dx, c1, x) hc1 with he | he
                · exact absurd (congrArg (fun t => t.2.2) he).symm hvx
                · exact he
              · intro e he
                exact hinv.fringeSeen e (popMin_sub hpop e he)
            have hr' := relaxNbrs_inv g s v ((v, d) :: st.dist) p0 d hne0 hhead0 hlast0
              hchain0 hw0 (g.nbrs v) ⟨st.seen, st.paths, rest, st.counter⟩ r'
              (nbrs_mem_edges g v) hrel hr0
            exact ih ⟨(v, d) :: st.dist, r'.seen, r'.paths, r'.fringe, r'.counter⟩
              hr' dist paths heq

/-- With nonnegative weights the loop never raises the contradictory-paths
error: it always finishes. -/
theorem dloop_finishes {W : Type} [LinearOrderedAddCommMonoid W] (g : Graph W)
    (target : String) (hnn : g.NonnegW) :
    ∀ (fuel : Nat) (st : DState W), MInvP st →
      ∃ dist paths, dloop g target fuel st = .finished dist paths := by
  intro fuel
  induction fuel with
  | zero =>
    intro st _
    exact ⟨st.dist, st.paths, by rw [dloop]⟩
  | succ fuel ih =>
    intro st hm
    cases hpop : popMin st.fringe with
    | none =>
      exact ⟨st.dist, st.paths, by simp only [dloop, hpop]⟩
    | some er =>
      obtain ⟨⟨d, c, v⟩, rest⟩ := er
      cases hdv : lookupL st.dist v with
      | some dv0 =>
        have hm2 : MInvP ⟨st.dist, st.seen, st.paths, rest, st.counter⟩ := by
          intro x dx hdx e he
          exact hm x dx hdx e (popMin_sub hpop e he)
        obtain ⟨dist, paths, hres⟩ := ih _ hm2
        refine ⟨dist, paths, ?_⟩
        simp only [dloop, hpop, hdv]
        exact hres
      | none =>
        by_cases hvt : v = target
        · exact ⟨(v, d) :: st.dist, st.paths, by simp only [dloop, hpop, hdv, if_pos hvt]⟩
        · have hd : ∀ x dx, lookupL ((v, d) :: st.dist) x = some dx → dx ≤ d := by
            intro x dx hdx
            rw [lookupL] at hdx
            by_cases hvx : v = x
            · rw [if_pos hvx] at hdx
              injection hdx with hdx
              exact le_of_eq hdx.symm
            · rw [if_neg hvx] at hdx
              have := hm x dx hdx (d, c, v) (popMin_mem hpop)
              exact this
          obtain ⟨r', hrel, hfr⟩ := relaxNbrs_some ((v, d) :: st.dist)
            ((lookupL st.paths v).getD [v]) d (g.nbrs v)
            ⟨st.seen, st.paths, rest, st.counter⟩ (nbrs_nonneg g hnn v) hd
          have hm2 : MInvP ⟨(v, d) :: st.dist, r'.seen, r'.paths, r'.fringe, r'.counter⟩ := by
            intro x dx hdx e he
            rcases hfr e he with he2 | he2
            · have hef : e ∈ st.fringe := popMin_sub hpop e he2
              rw [lookupL] at hdx
              by_cases hvx : v = x
              · rw [if_pos hvx] at hdx
                injection hdx with hdx
                rcases popMin_lexmin hpop e hef with h2 | h2
                · exact le_trans (le_of_eq hdx.symm) (le_of_lt h2)
                · exact le_trans (le_of_eq hdx.symm) (le_of_eq h2.1)
              · rw [if_neg hvx] at hdx
                exact hm x dx hdx e hef
            · exact le_trans (hd x dx hdx) he2
          obtain ⟨dist, paths, hres⟩ := ih _ hm2
          refine ⟨dist, paths, ?_⟩
          simp only [dloop, hpop, hdv, if_neg hvt, hrel]
          exact hres

/-- C4: on every well-formed graph, a successful find_shortest_path call
returns a path whose consecutive pairs are all edges of the graph, and a
total weight equal to the sum of the graph's edge weights along that path,
recomputed independently by pathW. -/
theorem shortest_path_weight_consistent {W : Type} [LinearOrderedAddCommMonoid W]
    (g : Graph W) (s t : String) (hwf : g.EdgesWF) (p : List String) (dd : WithTop W)
    (hok : find_shortest_path g s t = .ok p dd) (hne : p ≠ []) :
    List.Chain' (edgeIn g) p ∧ dd = ↑(pathW g p) := by
  by_cases hmem : s ∈ g.nodes ∧ t ∈ g.nodes
  · by_cases hst : s = t
    · have h1 : nx_shortest_path g s t = .ok [s] := by
        rw [nx_shortest_path, if_pos hmem, if_pos hst]
      have h2 : nx_shortest_path_length g s t = .ok (0 : WithTop W) := by
        rw [nx_shortest_path_length, if_pos hmem.1, if_pos hst]
      simp only [find_shortest_path, h1, h2] at hok
      injection hok with hp hd
      subst hp
      subst hd
      refine ⟨List.chain'_singleton s, ?_⟩
      show (0 : WithTop W) = ((0 : W) : WithTop W)
      rw [WithTop.coe_zero]
    · cases hdij : single_source_dijkstra g s t with
      | valueError =>
        have h1 : nx_shortest_path g s t = .error .contradictoryPaths := by
          rw [nx_shortest_path, if_pos hmem, if_neg hst]
          simp only [hdij]
        simp only [find_shortest_path, h1] at hok
        cases hok
      | finished dist paths =>
        cases hdt : lookupL dist t with
        | none =>
          have h1 : nx_shortest_path g s t = .error .noPath := by
            rw [nx_shortest_path, if_pos hmem, if_neg hst]
            simp only [hdij, hdt]
          simp only [find_shortest_path, h1] at hok
          injection hok with hp hd
          exact absurd hp.symm hne
        | some dt =>
          cases hpt : lookupL paths t with
          | none =>
            have h1 : nx_shortest_path g s t = .error .noPath := by
              rw [nx_shortest_path, if_pos hmem, if_neg hst]
              simp only [hdij, hdt, hpt]
            simp only [find_shortest_path, h1] at hok
            injection hok with hp hd
            exact absurd hp.symm hne
          | some pt =>
            have h1 : nx_shortest_path g s t = .ok pt := by
              rw [nx_shortest_path, if_pos hmem, if_neg hst]
              simp only [hdij, hdt, hpt]
            have h2 : nx_shortest_path_length g s t = .ok ((dt : W) : WithTop W) := by
              rw [nx_shortest_path_length, if_pos hmem.1, if_neg hst]
              simp only [hdij, hdt]
            simp only [find_shortest_path, h1, h2] at hok
            injection hok with hp hd
            subst hp
            subst hd
            rw [single_source_dijkstra] at hdij
            have hinv := dloop_inv g s t (dijkstraFuel g) _ (DInv_init g s) dist paths hdij
            obtain ⟨p1, hp1, hw1⟩ := hinv.2 t dt hdt
            rw [hpt] at hp1
            injection hp1 with hp1
            subst hp1
            obtain ⟨_, _, _, hchain⟩ := hinv.1 t pt hpt
            exact ⟨hchain, by rw [hw1 hwf]⟩
  · have h1 : nx_shortest_path g s t = .error (.nodeNotFound [s, t]) := by
      rw [nx_shortest_path, if_neg hmem]
    simp only [find_shortest_path, h1] at hok
    cases hok

/-- Witness for C4 at a concrete two-node graph. -/
theorem shortest_path_weight_consistent_witness :
    List.Chain' (edgeIn (⟨["A", "B"], [("A", "B", 1)]⟩ : Graph ℕ)) ["A", "B"] ∧
      ((1 : ℕ) : WithTop ℕ) =
        ↑(pathW (⟨["A", "B"], [("A", "B", 1)]⟩ : Graph ℕ) ["A", "B"]) :=
  shortest_path_weight_consistent (⟨["A", "B"], [("A", "B", 1)]⟩ : Graph ℕ) "A" "B"
    (by simp [Graph.EdgesWF]) ["A", "B"] ((1 : ℕ) : WithTop ℕ) (by decide) (by decide)

/-- C3: for two existing nodes with no connecting path (disjoint components)
and nonnegative weights, find_shortest_path returns the caught-NoPath result
([], top), the model of ([], float inf) -- a plain return value, distinct
from the NodeNotFound and ValueError outcomes by constructor and from every
successful result by its empty path. -/
theorem shortest_path_disconnected_notfound {W : Type} [LinearOrderedAddCommMonoid W]
    (g : Graph W) (s t : String) (hs : s ∈ g.nodes) (ht : t ∈ g.nodes)
    (hnn : g.NonnegW) (hreach : ¬ Reach g s t) :
    find_shortest_path g s t = .ok [] ⊤ := by
  have hst : ¬ (s = t) := fun h => hreach (h ▸ Relation.ReflTransGen.refl)
  obtain ⟨dist, paths, hdij⟩ := dloop_finishes g t hnn (dijkstraFuel g)
    ⟨[], [(s, 0)], [(s, [s])], [(0, 0, s)], 1⟩ (MInvP_init s)
  have hdijE : single_source_dijkstra g s t = .finished dist paths := by
    rw [single_source_dijkstra]
    exact hdij
  have hinv := dloop_inv g s t (dijkstraFuel g) _ (DInv_init g s) dist paths hdij
  have hdt : lookupL dist t = none := by
    cases h : lookupL dist t with
    | none => rfl
    | some dt =>
      obtain ⟨p0, hp0, _⟩ := hinv.2 t dt h
      obtain ⟨hne0, hhead0, hlast0, hchain0⟩ := hinv.1 t p0 hp0
      exact absurd (chain_reach g p0 s t hhead0 hlast0 hchain0) hreach
  have h1 : nx_shortest_path g s t = .error .noPath := by
    rw [nx_shortest_path, if_pos (⟨hs, ht⟩ : s ∈ g.nodes ∧ t ∈ g.nodes), if_neg hst]
    simp only [hdijE, hdt]
  simp only [find_shortest_path, h1]

/-- Witness for C3 at a concrete two-node edgeless graph. -/
theorem shortest_path_disconnected_witness :
    find_shortest_path (⟨["A", "B"], []⟩ : Graph ℕ) "A" "B" = .ok [] ⊤ := by
  refine shortest_path_disconnected_notfound (⟨["A", "B"], []⟩ : Graph ℕ) "A" "B"
    (by decide) (by decide) (fun e he => absurd he (List.not_mem_nil e)) ?_
  intro h
  rcases Relation.ReflTransGen.cases_head h with h1 | ⟨c, hc, _⟩
  · exact absurd h1 (by decide)
  · simp [edgeIn, Graph.getEdge, findEdge] at hc

/-! Every graph the script builds satisfies the two representation
invariants assumed above: one edge record per unordered pair, and
nonnegative weights. -/

theorem haversine_nonneg (a b : ℝ × ℝ) : 0 ≤ calculate_haversine_distance a b := by
  unfold calculate_haversine_distance haversine
  have h1 : (0 : ℝ) ≤ Real.arcsin (Real.sqrt
      (Real.sin ((b.1 * (Real.pi / 180) - a.1 * (Real.pi / 180)) / 2) ^ 2 +
        Real.cos (a.1 * (Real.pi / 180)) * Real.cos (b.1 * (Real.pi / 180)) *
          Real.sin ((b.2 * (Real.pi / 180) - a.2 * (Real.pi / 180)) / 2) ^ 2)) :=
    Real.arcsin_nonneg.mpr (Real.sqrt_nonneg _)
  have h2 : (0 : ℝ) ≤ 2 * earthRadiusKm := by norm_num [earthRadiusKm]
  exact mul_nonneg h2 h1

theorem updEdge_mem_epair {W : Type} :
    ∀ (edges : List (String × String × W)) (u v : String) (w : W),
      ∀ f ∈ updEdge edges u v w, (∃ e ∈ edges, epair f = epair e) ∨ epair f = (u, v) := by
  intro edges
  induction edges with
  | nil =>
    intro u v w f hf
    simp [updEdge] at hf
    subst hf
    exact Or.inr rfl
  | cons e rest ih =>
    intro u v w f hf
    by_cases he : sameEdgeB (e.1, e.2.1) (u, v) = true
    · rw [updEdge, if_pos he] at hf
      rcases List.mem_cons.mp hf with rfl | hf
      · exact Or.inl ⟨e, List.mem_cons_self e rest, rfl⟩
      · exact Or.inl ⟨f, List.mem_cons_of_mem e hf, rfl⟩
    · rw [updEdge, if_neg he] at hf
      rcases List.mem_cons.mp hf with rfl | hf
      · exact Or.inl ⟨f, List.mem_cons_self f rest, rfl⟩
      · rcases ih u v w f hf with ⟨e0, he0, hep⟩ | hep
        · exact Or.inl ⟨e0, List.mem_cons_of_mem e he0, hep⟩
        · exact Or.inr hep

theorem updEdge_pairwise {W : Type} :
    ∀ (edges : List (String × String × W)) (u v : String) (w : W),
      edges.Pairwise (fun e f => sameEdgeB (epair e) (epair f) = false) →
      (updEdge edges u v w).Pairwise (fun e f => sameEdgeB (epair e) (epair f) = false) := by
  intro edges
  induction edges with
  | nil => intro u v w _; simp [updEdge]
  | cons e rest ih =>
    intro u v w h
    rcases List.pairwise_cons.mp h with ⟨hhead, htail⟩
    by_cases he : sameEdgeB (e.1, e.2.1) (u, v) = true
    · rw [updEdge, if_pos he]
      rw [List.pairwise_cons]
      exact ⟨fun f hf => hhead f hf, htail⟩
    · rw [updEdge, if_neg he]
      rw [List.pairwise_cons]
      refine ⟨?_, ih u v w htail⟩
      intro f hf
      rcases updEdge_mem_epair rest u v w f hf with ⟨e0, he0, hep⟩ | hep
      · rw [hep]
        exact hhead e0 he0
      · rw [hep]
        show sameEdgeB (e.1, e.2.1) (u, v) = false
        exact Bool.eq_false_iff.mpr he
  
theorem updEdge_weights {W : Type} (P : W → Prop) :
    ∀ (edges : List (String × String × W)) (u v : String) (w : W),
      (∀ e ∈ edges, P e.2.2) → P w → ∀ e ∈ updEdge edges u v w, P e.2.2 := by
  intro edges
  induction edges with
  | nil =>
    intro u v w _ hw f hf
    simp [updEdge] at hf
    subst hf
    exact hw
  | cons e rest ih =>
    intro u v w h hw f hf
    by_cases he : sameEdgeB (e.1, e.2.1) (u, v) = true
    · rw [updEdge, if_pos he] at hf
      rcases List.mem_cons.mp hf with rfl | hf
      · exact hw
      · exact h f (List.mem_cons_of_mem e hf)
    · rw [updEdge, if_neg he] at hf
      rcases List.mem_cons.mp hf with rfl | hf
      · exact h f (List.mem_cons_self f rest)
      · exact ih u v w (fun x hx => h x (List.mem_cons_of_mem e hx)) hw f hf

/-- Every graph built by the script has at most one edge record per
unordered endpoint pair: the C4 well-formedness hypothesis is a
representation invariant, not an extra assumption. -/
theorem build_flight_graph_edgesWF (coords : List (String × (ℝ × ℝ)))
    (conns : List (String × String)) : (build_flight_graph coords conns).EdgesWF := by
  rw [build_flight_graph]
  have hbase : ∀ (g : Graph ℝ), g.EdgesWF →
      ∀ (cs : List (String × String)), (cs.foldl (buildEdgeStep coords) g).EdgesWF := by
    intro g hg cs
    induction cs generalizing g with
    | nil => exact hg
    | cons c rest ih =>
      rw [List.foldl_cons]
      refine ih _ ?_
      cases h1 : lookupL coords c.1 with
      | none => rw [buildEdgeStep, h1]; exact hg
      | some p1 =>
        cases h2 : lookupL coords c.2 with
        | none => rw [buildEdgeStep, h1, h2]; exact hg
        | some p2 =>
          rw [buildEdgeStep, h1, h2]
          show (Graph.add_edge g c.1 c.2 _).edges.Pairwise _
          rw [add_edge_edges]
          exact updEdge_pairwise g.edges c.1 c.2 _ hg
  refine hbase _ ?_ conns
  show (List.foldl (fun (g : Graph ℝ) cw => g.add_node cw.1) (⟨[], []⟩ : Graph ℝ)
    coords).edges.Pairwise _
  rw [foldl_add_node_edges]
  exact List.Pairwise.nil

/-- Every graph built by the script has nonnegative edge weights: the C3
nonnegativity hypothesis is likewise a representation invariant. -/
theorem build_flight_graph_nonnegW (coords : List (String × (ℝ × ℝ)))
    (conns : List (String × String)) : (build_flight_graph coords conns).NonnegW := by
  rw [build_flight_graph]
  have hbase : ∀ (g : Graph ℝ), g.NonnegW →
      ∀ (cs : List (String × String)), (cs.foldl (buildEdgeStep coords) g).NonnegW := by
    intro g hg cs
    induction cs generalizing g with
    | nil => exact hg
    | cons c rest ih =>
      rw [List.foldl_cons]
      refine ih _ ?_
      cases h1 : lookupL coords c.1 with
      | none => rw [buildEdgeStep, h1]; exact hg
      | some p1 =>
        cases h2 : lookupL coords c.2 with
        | none => rw [buildEdgeStep, h1, h2]; exact hg
        | some p2 =>
          rw [buildEdgeStep, h1, h2]
          intro e he
          rw [add_edge_edges] at he
          exact updEdge_weights (fun w => (0 : ℝ) ≤ w) g.edges c.1 c.2 _ hg
            (haversine_nonneg p1 p2) e he
  refine hbase _ ?_ conns
  intro e he
  rw [foldl_add_node_edges] at he
  cases he
